import Mathlib

set_option maxRecDepth 8000

/-!
Shallow embedding of the two-pass MIPS assembler in `assembly.py` and proofs
about its specification claims.

Conventions of the embedding:
- Python strings are modelled as `List Char` internally; the API-level line and
  token type is `String` (converted with `String.toList` / `List.asString`).
- Python exceptions raised by the assembler are modelled as the `AsmError`
  inductive, one constructor per error condition of the source (all of them are
  `ValueError`s at runtime; the constructors follow the conditions that raise
  them, which is also the taxonomy used by the specification).  Error message
  texts are not modelled, only which condition fired.
- Machine integers do not occur: Python integers are unbounded, so `Nat`/`Int`
  model them exactly.
- ASCII caveat: `Char.isDigit`, `Char.isAlpha`, `Char.toLower` and
  `Char.isWhitespace` are ASCII-oriented, exactly matching the explicit
  character class `[a-zA-Z0-9_]` of the source's label regex.  Python's
  `int()`, `str.lower()` and `str.strip()` additionally accept some non-ASCII
  characters (Unicode digits, case mappings and spaces); theorems whose truth
  depends on a token failing to parse as an integer therefore carry an
  ASCII-token hypothesis.
-/

/-- A character of the source's label character class `[a-zA-Z0-9_]`. -/
def isWordChar (c : Char) : Bool :=
  c.isAlpha || c.isDigit || c = '_'

/-- Python `s.split('#')[0]`: the prefix of the line before the first `#`. -/
def stripComment (l : List Char) : List Char :=
  l.takeWhile (fun c => c ≠ '#')

/-- Python `s.strip()`: drop whitespace from both ends. -/
def pyStrip (l : List Char) : List Char :=
  ((l.dropWhile Char.isWhitespace).reverse.dropWhile Char.isWhitespace).reverse

/-- Python `s.split()` (no separator): split on whitespace runs, dropping empty
pieces.  `acc` holds the characters of the current token, reversed. -/
def splitWsAux : List Char → List Char → List (List Char)
  | [], acc => if acc.isEmpty then [] else [acc.reverse]
  | c :: cs, acc =>
    if c.isWhitespace then
      if acc.isEmpty then splitWsAux cs [] else acc.reverse :: splitWsAux cs []
    else
      splitWsAux cs (c :: acc)

def splitWs (l : List Char) : List (List Char) :=
  splitWsAux l []

/-- Python decimal digit groups as accepted by `int()`: `digits (_ digits)*`.
`seen` records whether the previous character was a digit (an underscore is
only legal directly between two digits).  Returns the decimal value. -/
def pyDigitsAux : List Char → Nat → Bool → Option Nat
  | [], acc, seen => if seen then some acc else none
  | c :: cs, acc, seen =>
    if c.isDigit then
      pyDigitsAux cs (acc * 10 + (c.toNat - 48)) true
    else if c = '_' then
      match seen, cs with
      | true, c2 :: _ => if c2.isDigit then pyDigitsAux cs acc false else none
      | _, _ => none
    else
      none

/-- Python `int(s)` on a whitespace-free token: optional sign followed by
digit groups.  (Python also accepts surrounding whitespace and non-ASCII
decimal digits; neither occurs in tokens produced by this assembler's
tokenizer, see the ASCII caveat in the header.) -/
def parsePyInt (s : String) : Option Int :=
  match s.toList with
  | '-' :: rest => (pyDigitsAux rest 0 false).map (fun n => -(n : Int))
  | '+' :: rest => (pyDigitsAux rest 0 false).map (fun n => (n : Int))
  | l => (pyDigitsAux l 0 false).map (fun n => (n : Int))

/-- Minimal binary digits of `n`, most significant first, with explicit fuel
(the fuel is always instantiated with `n` itself, which suffices). -/
def binDigitsF : Nat → Nat → List Char
  | _, 0 => []
  | 0, _ + 1 => []
  | f + 1, n + 1 =>
    binDigitsF f ((n + 1) / 2) ++ [if (n + 1) % 2 = 1 then '1' else '0']

def binDigits (n : Nat) : List Char :=
  binDigitsF n n

/-- Python `format(n, 'b')` for a non-negative `n`: minimal binary digits,
with `'0'` for zero. -/
def pyBin (n : Nat) : List Char :=
  if n = 0 then ['0'] else binDigits n

/-- Left-pad with `'0'` up to width `w` (no-op if already at least `w` long),
as Python's `'0{w}'` format padding does for non-negative numbers. -/
def padZeros (w : Nat) (l : List Char) : List Char :=
  List.replicate (w - l.length) '0' ++ l

/-- Python `format(n, f'0{width}b')` for an `Int`: for negative values the
sign is printed and counts towards the width, with the zero padding between
the sign and the digits. -/
def pyFormat0b (n : Int) (width : Nat) : List Char :=
  if n < 0 then
    '-' :: (List.replicate (width - ((pyBin n.natAbs).length + 1)) '0' ++ pyBin n.natAbs)
  else
    padZeros width (pyBin n.toNat)

/-- Source `to_binary(n, bits)`: add `2^bits` to negative values, then format
with minimal width `bits`.  Note that nothing truncates: values outside
`[-2^bits, 2^bits)` yield strings longer than `bits` characters or strings
containing a sign character. -/
def to_binary (n : Int) (bits : Nat) : List Char :=
  pyFormat0b (if n < 0 then (2 ^ bits : Int) + n else n) bits

/-- Minimal lowercase hexadecimal digits of `n`, most significant first, with
explicit fuel (always instantiated with `n` itself). -/
def hexDigitsF : Nat → Nat → List Char
  | _, 0 => []
  | 0, _ + 1 => []
  | f + 1, n + 1 =>
    hexDigitsF f ((n + 1) / 16) ++ [(Nat.digitChar ((n + 1) % 16))]

/-- Python `format(n, '08x')` for non-negative `n`. -/
def pyFormat08x (n : Nat) : List Char :=
  padZeros 8 (if n = 0 then ['0'] else hexDigitsF n n)

/-- Source rendering of an encoded word: `f"0x{hex[:4]}_{hex[4:]}"` applied to
`format(n, '08x')`. -/
def render (n : Nat) : String :=
  (('0' :: 'x' :: (pyFormat08x n).take 4) ++ '_' :: (pyFormat08x n).drop 4).asString

/-- Value of a binary digit string, as `int(s, 2)` computes it. -/
def binVal (l : List Char) : Nat :=
  l.foldl (fun a c => 2 * a + (if c = '1' then 1 else 0)) 0

/-- Python `int(s, 2)` as applied to the assembled bit strings: succeeds
exactly on non-empty all-`0`/`1` strings.  (Python additionally accepts
sign/`0b`/underscore decorations; every string reaching this parse starts
with a digit of a `to_binary` field of a non-negative code, so those forms
cannot occur here, while a stray `-` from a `to_binary` overflow sits in the
middle of the string and makes Python's parse fail, as modelled.) -/
def pyIntBase2 (l : List Char) : Option Nat :=
  if l ≠ [] ∧ l.all (fun c => c = '0' || c = '1') then some (binVal l) else none

/-- The error conditions raised by the source (all Python `ValueError`s);
`internalBinaryParse` is the failure of the final `int(binary_code, 2)` on a
malformed bit string, which the source does not raise itself but which its
callers catch like the rest. -/
inductive AsmError where
  | unknownRegister
  | unsupportedInstruction
  | operandCountMismatch
  | invalidShiftAmount
  | invalidImmediate
  | invalidLabelOrImmediate
  | branchOffsetOutOfRange
  | invalidLabelOrAddress
  | unalignedJumpTarget
  | duplicateLabel
  | internalBinaryParse
deriving DecidableEq

/-- REGISTER_MAP of the source: every accepted register spelling with its
index. -/
def REGISTER_MAP : List (String × Nat) :=
  [("$zero", 0), ("$0", 0), ("$at", 1), ("$1", 1), ("$v0", 2), ("$2", 2),
   ("$v1", 3), ("$3", 3), ("$a0", 4), ("$4", 4), ("$a1", 5), ("$5", 5),
   ("$a2", 6), ("$6", 6), ("$a3", 7), ("$7", 7), ("$t0", 8), ("$8", 8),
   ("$t1", 9), ("$9", 9), ("$t2", 10), ("$10", 10), ("$t3", 11), ("$11", 11),
   ("$t4", 12), ("$12", 12), ("$t5", 13), ("$13", 13), ("$t6", 14), ("$14", 14),
   ("$t7", 15), ("$15", 15), ("$s0", 16), ("$16", 16), ("$s1", 17), ("$17", 17),
   ("$s2", 18), ("$18", 18), ("$s3", 19), ("$19", 19), ("$s4", 20), ("$20", 20),
   ("$s5", 21), ("$21", 21), ("$s6", 22), ("$22", 22), ("$s7", 23), ("$23", 23),
   ("$t8", 24), ("$24", 24), ("$t9", 25), ("$25", 25), ("$k0", 26), ("$26", 26),
   ("$k1", 27), ("$27", 27), ("$gp", 28), ("$28", 28), ("$sp", 29), ("$29", 29),
   ("$fp", 30), ("$30", 30), ("$ra", 31), ("$31", 31)]

inductive InstrType where
  | R
  | I
  | J
deriving DecidableEq

/-- One INSTRUCTIONS entry: the format type and the 6-bit code (the `funct`
value for R-type entries, the `opcode` value for I/J-type entries). -/
structure InstrInfo where
  type : InstrType
  code : Nat
deriving DecidableEq

/-- INSTRUCTIONS table of the source. -/
def INSTRUCTIONS : List (String × InstrInfo) :=
  [("add", ⟨.R, 0x20⟩), ("sub", ⟨.R, 0x22⟩), ("and", ⟨.R, 0x24⟩),
   ("or", ⟨.R, 0x25⟩), ("slt", ⟨.R, 0x2a⟩), ("sll", ⟨.R, 0x00⟩),
   ("addi", ⟨.I, 0x08⟩), ("lw", ⟨.I, 0x23⟩), ("sw", ⟨.I, 0x2b⟩),
   ("beq", ⟨.I, 0x04⟩), ("bne", ⟨.I, 0x05⟩), ("j", ⟨.J, 0x02⟩)]

/-- Symbol table: label name to byte address.  The source uses a dict; since a
duplicate insertion is rejected before it happens, an association list with
first-match lookup is an exact model. -/
abbrev SymTab : Type := List (String × Nat)

/-- Source `parse_register`. -/
def parse_register (s : String) : Except AsmError Nat :=
  match REGISTER_MAP.lookup s with
  | some n => .ok n
  | none => .error .unknownRegister

/-- R-type encoding body for mnemonics other than `sll`
(`op $rd, $rs, $rt`). -/
def encodeRGeneral (info : InstrInfo) (o0 o1 o2 : String) :
    Except AsmError (List Char) := do
  let rd ← parse_register o0
  let rs ← parse_register o1
  let rt ← parse_register o2
  pure (('0' :: '0' :: '0' :: '0' :: '0' :: '0' :: []) ++ to_binary rs 5 ++
    to_binary rt 5 ++ to_binary rd 5 ++ to_binary 0 5 ++ to_binary info.code 6)

/-- `sll $rd, $rt, shamt` encoding body.  In the source, the out-of-range
`raise` sits inside the `try` and is caught by the same `except` as a
non-numeric shift amount; both paths are the invalid-shift-amount condition. -/
def encodeSll (info : InstrInfo) (o0 o1 o2 : String) :
    Except AsmError (List Char) := do
  let rd ← parse_register o0
  let rt ← parse_register o1
  match parsePyInt o2 with
  | none => throw .invalidShiftAmount
  | some sh =>
    if 0 ≤ sh ∧ sh < 32 then
      pure (('0' :: '0' :: '0' :: '0' :: '0' :: '0' :: []) ++ to_binary 0 5 ++
        to_binary rt 5 ++ to_binary rd 5 ++ to_binary sh 5 ++ to_binary info.code 6)
    else
      throw .invalidShiftAmount

/-- `lw`/`sw` encoding body (`rt, immediate, rs` after tokenization). -/
def encodeMem (info : InstrInfo) (o0 o1 o2 : String) :
    Except AsmError (List Char) := do
  let rt ← parse_register o0
  let rs ← parse_register o2
  match parsePyInt o1 with
  | none => throw .invalidImmediate
  | some imm =>
    pure (to_binary info.code 6 ++ to_binary rs 5 ++ to_binary rt 5 ++
      to_binary imm 16)

/-- `beq`/`bne` encoding body.  A label wins over a literal immediate; the
Python `offset >> 2` is an arithmetic shift, i.e. floor division by 4, which
for the positive divisor 4 coincides with Lean's Euclidean `/` on `Int`. -/
def encodeBranch (info : InstrInfo) (o0 o1 o2 : String) (tbl : SymTab)
    (addr : Nat) : Except AsmError (List Char) := do
  let rs ← parse_register o0
  let rt ← parse_register o1
  let imm? : Option Int :=
    match tbl.lookup o2 with
    | some target => some (((target : Int) - ((addr : Int) + 4)) / 4)
    | none => parsePyInt o2
  match imm? with
  | none => throw .invalidLabelOrImmediate
  | some imm =>
    if -32768 ≤ imm ∧ imm ≤ 32767 then
      pure (to_binary info.code 6 ++ to_binary rs 5 ++ to_binary rt 5 ++
        to_binary imm 16)
    else
      throw .branchOffsetOutOfRange

/-- `addi` encoding body (the catch-all I-type branch of the source). -/
def encodeAddi (info : InstrInfo) (o0 o1 o2 : String) :
    Except AsmError (List Char) := do
  let rt ← parse_register o0
  let rs ← parse_register o1
  match parsePyInt o2 with
  | none => throw .invalidImmediate
  | some imm =>
    pure (to_binary info.code 6 ++ to_binary rs 5 ++ to_binary rt 5 ++
      to_binary imm 16)

/-- `j` encoding body.  The alignment test uses Python `%`, which for the
positive modulus 4 coincides with Lean's `%` on `Int`; `>> 2` is floor
division by 4 as in `encodeBranch`. -/
def encodeJ (info : InstrInfo) (o0 : String) (tbl : SymTab) :
    Except AsmError (List Char) := do
  let target? : Option Int :=
    match tbl.lookup o0 with
    | some target => some (target : Int)
    | none => parsePyInt o0
  match target? with
  | none => throw .invalidLabelOrAddress
  | some target =>
    if target % 4 ≠ 0 then
      throw .unalignedJumpTarget
    else
      pure (to_binary info.code 6 ++ to_binary (target / 4) 26)

/-- Dispatch on the instruction type and mnemonic, mirroring the branch
structure of the source's `assemble` after the mnemonic lookup.  Produces the
`binary_code` bit string. -/
def buildCode (mnemonic : String) (info : InstrInfo) (operands : List String)
    (tbl : SymTab) (addr : Nat) : Except AsmError (List Char) :=
  match info.type with
  | .R =>
    match operands with
    | [o0, o1, o2] =>
      if mnemonic = "sll" then encodeSll info o0 o1 o2
      else encodeRGeneral info o0 o1 o2
    | _ => .error .operandCountMismatch
  | .I =>
    if mnemonic = "lw" ∨ mnemonic = "sw" then
      match operands with
      | [o0, o1, o2] => encodeMem info o0 o1 o2
      | _ => .error .operandCountMismatch
    else if mnemonic = "beq" ∨ mnemonic = "bne" then
      match operands with
      | [o0, o1, o2] => encodeBranch info o0 o1 o2 tbl addr
      | _ => .error .operandCountMismatch
    else
      match operands with
      | [o0, o1, o2] => encodeAddi info o0 o1 o2
      | _ => .error .operandCountMismatch
  | .J =>
    match operands with
    | [o0] => encodeJ info o0 tbl
    | _ => .error .operandCountMismatch

/-- Final step of `assemble`: `format(int(binary_code, 2), '08x')` and the
`0x{...}_{...}` rendering. -/
def finishCode (binary_code : List Char) : Except AsmError String :=
  match pyIntBase2 binary_code with
  | none => .error .internalBinaryParse
  | some v => .ok (render v)

/-- Tokenization done at the top of `assemble`: strip, replace `,`/`(`/`)`
with spaces, split on whitespace. -/
def pyTokens (line : String) : List String :=
  (splitWs ((pyStrip line.toList).map
    (fun c => if c = ',' ∨ c = '(' ∨ c = ')' then ' ' else c))).map List.asString

/-- Body of `assemble` after tokenization (`parts`, the symbol table and the
current address are its inputs).  An empty token list returns the empty
string, as the source does. -/
def assembleParts (parts : List String) (tbl : SymTab) (addr : Nat) :
    Except AsmError String :=
  match parts with
  | [] => .ok ""
  | p0 :: operands =>
    let mnemonic := (p0.toList.map Char.toLower).asString
    match INSTRUCTIONS.lookup mnemonic with
    | none => .error .unsupportedInstruction
    | some info => buildCode mnemonic info operands tbl addr >>= finishCode

/-- Source `assemble(line, symbol_table, current_address)`. -/
def assemble (line : String) (tbl : SymTab) (addr : Nat) :
    Except AsmError String :=
  assembleParts (pyTokens line) tbl addr

/-- Comment-stripped and whitespace-stripped form of a raw input line, as both
passes compute it first. -/
def lineStripped (l : String) : List Char :=
  pyStrip (stripComment l.toList)

/-- The label regex `^\s*([a-zA-Z0-9_]+):\s*(.*)` applied to an already
stripped line, returning the label and the (stripped) instruction residue.
Greedy matching with backtracking reduces to take-while here because a word
character is never `':'`.  The residue is returned already stripped because
both passes immediately call `.strip()` on `group(2)`. -/
def matchLabel (cs : List Char) : Option (String × List Char) :=
  let lab := cs.takeWhile isWordChar
  match cs.dropWhile isWordChar with
  | ':' :: r => if lab.isEmpty then none else some (lab.asString, pyStrip r)
  | _ => none

/-- The instruction residue of a line: the stripped line with any label prefix
removed (empty for blank and label-only lines). -/
def lineResidue (l : String) : List Char :=
  match matchLabel (lineStripped l) with
  | some (_, r) => r
  | none => lineStripped l

/-- A line that carries an instruction, i.e. whose residue after comment,
whitespace and label stripping is non-empty.  Both passes advance their
running address exactly on these lines. -/
def isInstrLine (l : String) : Bool :=
  !(lineResidue l).isEmpty

/-- The labels defined by a line sequence, in order of definition. -/
def definedLabels (lines : List String) : List String :=
  lines.filterMap (fun l => (matchLabel (lineStripped l)).map (fun p => p.1))

/-- Number of instruction-bearing lines in a sequence. -/
def instrCount (lines : List String) : Nat :=
  (lines.filter isInstrLine).length

/-- First pass, recursing over the lines with the table and running address as
accumulators.  New labels are inserted at the front; since a duplicate key is
rejected before insertion, front insertion is lookup-equivalent to the
source's dict insertion. -/
def first_pass_go : SymTab → Nat → List String → Except AsmError SymTab
  | tbl, _, [] => .ok tbl
  | tbl, addr, l :: ls =>
    let line := lineStripped l
    if line.isEmpty then
      first_pass_go tbl addr ls
    else
      match matchLabel line with
      | some (lab, instr) =>
        if (tbl.lookup lab).isSome then
          .error .duplicateLabel
        else
          if instr.isEmpty then first_pass_go ((lab, addr) :: tbl) addr ls
          else first_pass_go ((lab, addr) :: tbl) (addr + 4) ls
      | none => first_pass_go tbl (addr + 4) ls

/-- Source `first_pass(lines)`. -/
def first_pass (lines : List String) : Except AsmError SymTab :=
  first_pass_go [] 0 lines

/-- Second pass.  A failing `assemble` is wrapped with the stripped original
line text, mirroring the source's re-raise.  Blank lines produce no result at
all; label-only lines produce a `(line, none)` result; the running address
advances only after an encoded instruction. -/
def second_pass_go :
    SymTab → Nat → List String → Except (String × AsmError) (List (String × Option String))
  | _, _, [] => .ok []
  | tbl, addr, l :: ls =>
    let line := lineStripped l
    if line.isEmpty then
      second_pass_go tbl addr ls
    else
      let instr :=
        match matchLabel line with
        | some (_, r) => r
        | none => line
      if instr.isEmpty then
        match second_pass_go tbl addr ls with
        | .ok rest => .ok ((l, none) :: rest)
        | .error e => .error e
      else
        match assemble instr.asString tbl addr with
        | .error e => .error ((pyStrip l.toList).asString, e)
        | .ok code =>
          match second_pass_go tbl (addr + 4) ls with
          | .ok rest => .ok ((l, some code) :: rest)
          | .error e => .error e

/-- Source `second_pass(lines, symbol_table)`. -/
def second_pass (lines : List String) (tbl : SymTab) :
    Except (String × AsmError) (List (String × Option String)) :=
  second_pass_go tbl 0 lines

/-- Modelled from the spec (refinement reference for the address bookkeeping):
the second pass with its running address made explicit as four times the
number of instruction-bearing lines already processed, as sections 4.2/4.3 of
the specification describe the two passes' shared bookkeeping. -/
def second_pass_spec_go :
    SymTab → Nat → List String → Except (String × AsmError) (List (String × Option String))
  | _, _, [] => .ok []
  | tbl, k, l :: ls =>
    let line := lineStripped l
    if line.isEmpty then
      second_pass_spec_go tbl k ls
    else
      let instr :=
        match matchLabel line with
        | some (_, r) => r
        | none => line
      if instr.isEmpty then
        match second_pass_spec_go tbl k ls with
        | .ok rest => .ok ((l, none) :: rest)
        | .error e => .error e
      else
        match assemble instr.asString tbl (4 * k) with
        | .error e => .error ((pyStrip l.toList).asString, e)
        | .ok code =>
          match second_pass_spec_go tbl (k + 1) ls with
          | .ok rest => .ok ((l, some code) :: rest)
          | .error e => .error e

/-- Reference second pass encoding each instruction-bearing line at address
`4 * (number of instruction-bearing lines before it)`, starting from 0. -/
def second_pass_spec (lines : List String) (tbl : SymTab) :
    Except (String × AsmError) (List (String × Option String)) :=
  second_pass_spec_go tbl 0 lines

/-- A non-blank line: something is left after comment and whitespace
stripping. -/
def nonBlankLine (l : String) : Bool :=
  !(lineStripped l).isEmpty

/-- Fixed-width binary digits of `n mod 2^bits`, most significant first: the
reference form against which the source's pad-after-minimal-format strings
are proved equal for in-range values. -/
def fixBits : Nat → Nat → List Char
  | 0, _ => []
  | b + 1, n => fixBits b (n / 2) ++ [if n % 2 = 1 then '1' else '0']

/-! ### Basic facts about the bit-string helpers -/

theorem except_bind_ok {ε α β : Type} (a : α) (f : α → Except ε β) :
    (Except.ok a >>= f) = f a := rfl

theorem except_bind_error {ε α β : Type} (e : ε) (f : α → Except ε β) :
    ((Except.error e : Except ε α) >>= f) = Except.error e := rfl

theorem except_bind_eq_ok {ε α β : Type} {x : Except ε α} {f : α → Except ε β}
    {b : β} (h : (x >>= f) = .ok b) : ∃ a, x = .ok a ∧ f a = .ok b := by
  cases x with
  | ok a => exact ⟨a, rfl, h⟩
  | error e => exact absurd h (by intro hx; cases hx)

theorem binVal_foldl (l : List Char) (x : Nat) :
    l.foldl (fun a c => 2 * a + (if c = '1' then 1 else 0)) x =
      x * 2 ^ l.length + binVal l := by
  induction l generalizing x with
  | nil => simp [binVal]
  | cons c cs ih =>
    simp only [List.foldl_cons, List.length_cons, binVal]
    rw [ih, ih (2 * 0 + _)]
    ring

theorem binVal_append (a b : List Char) :
    binVal (a ++ b) = binVal a * 2 ^ b.length + binVal b := by
  unfold binVal
  rw [List.foldl_append, binVal_foldl]
  rfl

theorem fixBits_length (b n : Nat) : (fixBits b n).length = b := by
  induction b generalizing n with
  | zero => rfl
  | succ b ih => simp [fixBits, ih]

theorem fixBits_all_bits (b n : Nat) :
    ∀ c ∈ fixBits b n, c = '0' ∨ c = '1' := by
  induction b generalizing n with
  | zero => intro c hc; cases hc
  | succ b ih =>
    intro c hc
    rw [fixBits] at hc
    rcases List.mem_append.mp hc with h | h
    · exact ih _ c h
    · rcases List.mem_singleton.mp h with rfl
      by_cases hp : n % 2 = 1 <;> simp [hp]

theorem mod_two_pow_succ (n b : Nat) :
    n % 2 ^ (b + 1) = 2 * (n / 2 % 2 ^ b) + n % 2 := by
  have h1 : 2 * (n / 2) + n % 2 = n := Nat.div_add_mod n 2
  have h2 : 2 ^ b * (n / 2 / 2 ^ b) + n / 2 % 2 ^ b = n / 2 :=
    Nat.div_add_mod (n / 2) (2 ^ b)
  have hpow : 2 ^ (b + 1) = 2 ^ b * 2 := pow_succ 2 b
  have hn : n = 2 ^ (b + 1) * (n / 2 / 2 ^ b) + (2 * (n / 2 % 2 ^ b) + n % 2) := by
    rw [hpow]
    calc n = 2 * (n / 2) + n % 2 := h1.symm
      _ = 2 * (2 ^ b * (n / 2 / 2 ^ b) + n / 2 % 2 ^ b) + n % 2 := by rw [h2]
      _ = 2 ^ b * 2 * (n / 2 / 2 ^ b) + (2 * (n / 2 % 2 ^ b) + n % 2) := by ring
  have hlt : 2 * (n / 2 % 2 ^ b) + n % 2 < 2 ^ (b + 1) := by
    have ha : n / 2 % 2 ^ b < 2 ^ b := Nat.mod_lt _ (Nat.pos_pow_of_pos b (by omega))
    have hb : n % 2 < 2 := Nat.mod_lt _ (by omega)
    rw [hpow]; omega
  calc n % 2 ^ (b + 1)
      = (2 ^ (b + 1) * (n / 2 / 2 ^ b) + (2 * (n / 2 % 2 ^ b) + n % 2)) % 2 ^ (b + 1) := by
        rw [← hn]
    _ = (2 * (n / 2 % 2 ^ b) + n % 2) % 2 ^ (b + 1) := Nat.mul_add_mod _ _ _
    _ = 2 * (n / 2 % 2 ^ b) + n % 2 := Nat.mod_eq_of_lt hlt

theorem fixBits_binVal (b n : Nat) : binVal (fixBits b n) = n % 2 ^ b := by
  induction b generalizing n with
  | zero => simp [fixBits, binVal, Nat.mod_one]
  | succ b ih =>
    rw [fixBits, binVal_append, ih, mod_two_pow_succ]
    by_cases hp : n % 2 = 1
    · simp [binVal, hp]; ring
    · have h0 : n % 2 = 0 := by omega
      simp [binVal, hp, h0]; ring

theorem binDigitsF_zero (f : Nat) : binDigitsF f 0 = [] := by
  cases f <;> rfl

theorem binDigitsF_stable (f : Nat) :
    ∀ n, n ≤ f → binDigitsF f n = binDigits n := by
  induction f using Nat.strong_induction_on with
  | _ f ih =>
    intro n hn
    match n, f with
    | 0, f => rw [binDigitsF_zero, binDigits, binDigitsF_zero]
    | m + 1, g + 1 =>
      have hhalf : (m + 1) / 2 ≤ m := by omega
      have hmg : m ≤ g := by omega
      show binDigitsF g ((m + 1) / 2) ++ _ = binDigits (m + 1)
      rw [ih g (by omega) _ (le_trans hhalf hmg)]
      show _ = binDigitsF (m + 1) (m + 1)
      show _ = binDigitsF m ((m + 1) / 2) ++ _
      rw [ih m (by omega) _ hhalf]

theorem binDigits_succ (m : Nat) :
    binDigits (m + 1) =
      binDigits ((m + 1) / 2) ++ [if (m + 1) % 2 = 1 then '1' else '0'] := by
  show binDigitsF (m + 1) (m + 1) = _
  show binDigitsF m ((m + 1) / 2) ++ _ = _
  rw [binDigitsF_stable m _ (by omega)]

theorem fixBits_zero_val (b : Nat) : fixBits b 0 = List.replicate b '0' := by
  induction b with
  | zero => rfl
  | succ b ih => rw [fixBits, Nat.zero_div, ih, List.replicate_succ']; rfl

theorem fixBits_eq_pad (b : Nat) :
    ∀ n, 1 ≤ n → n < 2 ^ b →
      fixBits b n = List.replicate (b - (binDigits n).length) '0' ++ binDigits n := by
  induction b with
  | zero => intro n h1 h2; omega
  | succ b ih =>
    intro n h1 h2
    rw [fixBits]
    by_cases hz : n / 2 = 0
    · have hn1 : n = 1 := by omega
      subst hn1
      rw [hz, fixBits_zero_val]
      have : binDigits 1 = [if 1 % 2 = 1 then '1' else '0'] := by
        rw [show (1 : Nat) = 0 + 1 from rfl, binDigits_succ]
        norm_num [binDigitsF_zero, binDigits]
      rw [this]
      simp
    · have hhalf1 : 1 ≤ n / 2 := by omega
      have hhalf2 : n / 2 < 2 ^ b := by
        have := (Nat.div_lt_iff_lt_mul (k := 2) (by omega)).mpr
          (by rw [← pow_succ]; exact h2)
        exact this
      rw [ih _ hhalf1 hhalf2]
      obtain ⟨m, rfl⟩ : ∃ m, n = m + 1 := ⟨n - 1, by omega⟩
      rw [List.append_assoc, ← binDigits_succ]
      have hlen : (binDigits (m + 1)).length = (binDigits ((m + 1) / 2)).length + 1 := by
        rw [binDigits_succ, List.length_append, List.length_singleton]
      rw [hlen]
      congr 2
      omega

theorem pyBin_pad (b n : Nat) (hb : 0 < b) (h : n < 2 ^ b) :
    padZeros b (pyBin n) = fixBits b n := by
  by_cases hz : n = 0
  · subst hz
    rw [pyBin, if_pos rfl, fixBits_zero_val, padZeros]
    simp only [List.length_singleton]
    obtain ⟨c, rfl⟩ : ∃ c, b = c + 1 := ⟨b - 1, by omega⟩
    rw [List.replicate_succ']
    simp
  · rw [pyBin, if_neg hz, padZeros, fixBits_eq_pad b n (by omega) h]

/-! ### Correctness of `to_binary` on in-range inputs -/

theorem to_binary_eq (n : Int) (b : Nat) (hb : 0 < b)
    (h1 : -((2 : Int) ^ b) ≤ n) (h2 : n < (2 : Int) ^ b) :
    to_binary n b = fixBits b (n % ((2 : Int) ^ b)).toNat := by
  have hcast : (((2 ^ b : Nat)) : Int) = (2 : Int) ^ b := by push_cast; ring
  by_cases hn : n < 0
  · rw [to_binary, if_pos hn, pyFormat0b, if_neg (by omega)]
    have hmod : n % (2 : Int) ^ b = (2 : Int) ^ b + n := by
      have e1 : n % (2 : Int) ^ b = (n + (2 : Int) ^ b * 1) % (2 : Int) ^ b := by
        rw [Int.add_mul_emod_self_left]
      rw [e1, mul_one, Int.emod_eq_of_lt (by omega) (by omega)]
      ring
    rw [hmod]
    exact pyBin_pad b _ hb (by omega)
  · rw [to_binary, if_neg hn, pyFormat0b, if_neg (by omega)]
    have hmod : n % (2 : Int) ^ b = n := Int.emod_eq_of_lt (by omega) h2
    rw [hmod]
    exact pyBin_pad b _ hb (by omega)

theorem to_binary_length (n : Int) (b : Nat) (hb : 0 < b)
    (h1 : -((2 : Int) ^ b) ≤ n) (h2 : n < (2 : Int) ^ b) :
    (to_binary n b).length = b := by
  rw [to_binary_eq n b hb h1 h2]; exact fixBits_length b _

theorem to_binary_bits (n : Int) (b : Nat) (hb : 0 < b)
    (h1 : -((2 : Int) ^ b) ≤ n) (h2 : n < (2 : Int) ^ b) :
    ∀ c ∈ to_binary n b, c = '0' ∨ c = '1' := by
  rw [to_binary_eq n b hb h1 h2]; exact fixBits_all_bits b _

theorem to_binary_val (n : Int) (b : Nat) (hb : 0 < b)
    (h1 : -((2 : Int) ^ b) ≤ n) (h2 : n < (2 : Int) ^ b) :
    binVal (to_binary n b) = (n % ((2 : Int) ^ b)).toNat := by
  have hcast : (((2 ^ b : Nat)) : Int) = (2 : Int) ^ b := by push_cast; ring
  have hlt : n % ((2 : Int) ^ b) < (2 : Int) ^ b :=
    Int.emod_lt_of_pos n (by positivity)
  have hge : 0 ≤ n % ((2 : Int) ^ b) :=
    Int.emod_nonneg n (by positivity)
  rw [to_binary_eq n b hb h1 h2, fixBits_binVal]
  exact Nat.mod_eq_of_lt (by omega)

theorem to_binary_natCast (m b : Nat) (hb : 0 < b) (h : m < 2 ^ b) :
    to_binary (m : Int) b = fixBits b m := by
  have hcast : (((2 ^ b : Nat)) : Int) = (2 : Int) ^ b := by push_cast; ring
  rw [to_binary_eq (m : Int) b hb (by omega) (by omega)]
  congr 1
  have : (m : Int) % (2 : Int) ^ b = m := Int.emod_eq_of_lt (by omega) (by omega)
  rw [this]
  omega

theorem pyIntBase2_eq (l : List Char) (hne : l ≠ [])
    (hbits : ∀ c ∈ l, c = '0' ∨ c = '1') :
    pyIntBase2 l = some (binVal l) := by
  rw [pyIntBase2, if_pos]
  refine ⟨hne, ?_⟩
  rw [List.all_eq_true]
  intro c hc
  rcases hbits c hc with rfl | rfl <;> rfl

/-! ### Words assembled from in-range fields -/

theorem encodeI_word (op rs rt : Nat) (imm : Int) (hop : op < 64)
    (hrs : rs < 32) (hrt : rt < 32) (h1 : -65536 ≤ imm) (h2 : imm < 65536) :
    finishCode (to_binary (op : Int) 6 ++ to_binary (rs : Int) 5 ++
        to_binary (rt : Int) 5 ++ to_binary imm 16) =
      .ok (render (op * 2 ^ 26 + rs * 2 ^ 21 + rt * 2 ^ 16 + (imm % 65536).toNat)) := by
  have hp : ((2 : Int) ^ 16) = 65536 := by norm_num
  have eA : to_binary (op : Int) 6 = fixBits 6 op :=
    to_binary_natCast op 6 (by norm_num) (lt_of_lt_of_eq hop (by norm_num))
  have eB : to_binary (rs : Int) 5 = fixBits 5 rs :=
    to_binary_natCast rs 5 (by norm_num) (lt_of_lt_of_eq hrs (by norm_num))
  have eC : to_binary (rt : Int) 5 = fixBits 5 rt :=
    to_binary_natCast rt 5 (by norm_num) (lt_of_lt_of_eq hrt (by norm_num))
  have eD : to_binary imm 16 = fixBits 16 (imm % 65536).toNat := by
    have e := to_binary_eq imm 16 (by norm_num) (by rw [hp]; exact h1)
      (by rw [hp]; exact h2)
    rwa [hp] at e
  have hM : (imm % 65536).toNat < 65536 := by
    have hlt : imm % 65536 < 65536 := Int.emod_lt_of_pos imm (by norm_num)
    omega
  rw [eA, eB, eC, eD, finishCode, pyIntBase2_eq]
  · simp only [binVal_append, List.length_append, fixBits_length, fixBits_binVal]
    rw [Nat.mod_eq_of_lt (lt_of_lt_of_eq hop (by norm_num)),
      Nat.mod_eq_of_lt (lt_of_lt_of_eq hrs (by norm_num)),
      Nat.mod_eq_of_lt (lt_of_lt_of_eq hrt (by norm_num)),
      Nat.mod_eq_of_lt (lt_of_lt_of_eq hM (by norm_num))]
    exact congrArg (fun v => (Except.ok (render v) : Except AsmError String)) (by ring)
  · exact List.length_pos.mp (by simp [List.length_append, fixBits_length])
  · intro c hc
    rcases List.mem_append.mp hc with h | h
    · rcases List.mem_append.mp h with h | h
      · rcases List.mem_append.mp h with h | h <;> exact fixBits_all_bits _ _ c h
      · exact fixBits_all_bits _ _ c h
    · exact fixBits_all_bits _ _ c h

theorem encodeR_word (rsI : Int) (rt rd : Nat) (sh : Int) (funct : Nat)
    (hrs0 : 0 ≤ rsI) (hrs : rsI < 32) (hrt : rt < 32) (hrd : rd < 32)
    (hsh0 : 0 ≤ sh) (hsh : sh < 32) (hf : funct < 64) :
    finishCode (('0' :: '0' :: '0' :: '0' :: '0' :: '0' :: []) ++
        to_binary rsI 5 ++ to_binary (rt : Int) 5 ++ to_binary (rd : Int) 5 ++
        to_binary sh 5 ++ to_binary (funct : Int) 6) =
      .ok (render (rsI.toNat * 2 ^ 21 + rt * 2 ^ 16 + rd * 2 ^ 11 +
        sh.toNat * 2 ^ 6 + funct)) := by
  have hp : ((2 : Int) ^ 5) = 32 := by norm_num
  have eInt : ∀ z : Int, 0 ≤ z → z < 32 → to_binary z 5 = fixBits 5 z.toNat := by
    intro z hz0 hz
    have e := to_binary_eq z 5 (by norm_num) (by rw [hp]; omega) (by rw [hp]; omega)
    rw [hp] at e
    rw [e]
    congr 1
    rw [Int.emod_eq_of_lt hz0 (by omega)]
  have eLit : ('0' :: '0' :: '0' :: '0' :: '0' :: '0' :: ([] : List Char)) =
      fixBits 6 0 := by
    rw [fixBits_zero_val]
    rfl
  have eA := eInt rsI hrs0 hrs
  have eB := eInt (rt : Int) (by omega) (by omega)
  have eC := eInt (rd : Int) (by omega) (by omega)
  have eD := eInt sh hsh0 hsh
  have eF : to_binary (funct : Int) 6 = fixBits 6 funct :=
    to_binary_natCast funct 6 (by norm_num) (lt_of_lt_of_eq hf (by norm_num))
  have hBt : ((rt : Int)).toNat = rt := by omega
  have hBd : ((rd : Int)).toNat = rd := by omega
  rw [eLit, eA, eB, eC, eD, eF, hBt, hBd, finishCode, pyIntBase2_eq]
  · simp only [binVal_append, List.length_append, fixBits_length, fixBits_binVal]
    rw [Nat.zero_mod,
      Nat.mod_eq_of_lt (show rsI.toNat < 2 ^ 5 by omega),
      Nat.mod_eq_of_lt (show rt < 2 ^ 5 by omega),
      Nat.mod_eq_of_lt (show rd < 2 ^ 5 by omega),
      Nat.mod_eq_of_lt (show sh.toNat < 2 ^ 5 by omega),
      Nat.mod_eq_of_lt (show funct < 2 ^ 6 by omega)]
    exact congrArg (fun v => (Except.ok (render v) : Except AsmError String)) (by ring)
  · exact List.length_pos.mp (by simp [List.length_append, fixBits_length])
  · intro c hc
    rcases List.mem_append.mp hc with h | h
    · rcases List.mem_append.mp h with h | h
      · rcases List.mem_append.mp h with h | h
        · rcases List.mem_append.mp h with h | h
          · rcases List.mem_append.mp h with h | h <;>
              exact fixBits_all_bits _ _ c h
          · exact fixBits_all_bits _ _ c h
        · exact fixBits_all_bits _ _ c h
      · exact fixBits_all_bits _ _ c h
    · exact fixBits_all_bits _ _ c h

theorem encodeJ_word (op : Nat) (jt : Int) (hop : op < 64)
    (h1 : -67108864 ≤ jt) (h2 : jt < 67108864) :
    finishCode (to_binary (op : Int) 6 ++ to_binary jt 26) =
      .ok (render (op * 2 ^ 26 + (jt % 67108864).toNat)) := by
  have hp : ((2 : Int) ^ 26) = 67108864 := by norm_num
  have eA : to_binary (op : Int) 6 = fixBits 6 op :=
    to_binary_natCast op 6 (by norm_num) (lt_of_lt_of_eq hop (by norm_num))
  have eB : to_binary jt 26 = fixBits 26 (jt % 67108864).toNat := by
    have e := to_binary_eq jt 26 (by norm_num) (by rw [hp]; exact h1)
      (by rw [hp]; exact h2)
    rwa [hp] at e
  have hM : (jt % 67108864).toNat < 67108864 := by
    have hlt : jt % 67108864 < 67108864 := Int.emod_lt_of_pos jt (by norm_num)
    omega
  rw [eA, eB, finishCode,
    pyIntBase2_eq _ (List.length_pos.mp (by simp [List.length_append, fixBits_length]))
      (by intro c hc
          rcases List.mem_append.mp hc with h | h <;> exact fixBits_all_bits _ _ c h)]
  simp only [binVal_append, List.length_append, fixBits_length, fixBits_binVal]
  rw [Nat.mod_eq_of_lt (lt_of_lt_of_eq hop (by norm_num)),
    Nat.mod_eq_of_lt (lt_of_lt_of_eq hM (by norm_num))]

/-! ### Register lookup facts and dispatch unfolding -/

theorem lookup_mem {α β : Type} [BEq α] [LawfulBEq α] :
    ∀ {l : List (α × β)} {a : α} {b : β}, List.lookup a l = some b → (a, b) ∈ l := by
  intro l
  induction l with
  | nil => intro a b h; simp [List.lookup_nil] at h
  | cons p l ih =>
    intro a b h
    obtain ⟨k, v⟩ := p
    rw [List.lookup_cons] at h
    cases hbeq : a == k with
    | true =>
      simp only [hbeq] at h
      injection h with h
      subst h
      have hak : a = k := eq_of_beq hbeq
      subst hak
      exact List.mem_cons_self _ _
    | false =>
      simp only [hbeq] at h
      exact List.mem_cons_of_mem _ (ih h)

theorem parse_register_lt {s : String} {n : Nat}
    (h : parse_register s = .ok n) : n < 32 := by
  unfold parse_register at h
  cases hl : List.lookup s REGISTER_MAP with
  | none =>
    simp only [hl] at h
    exact Except.noConfusion h
  | some m =>
    simp only [hl] at h
    injection h with h
    subst h
    have hall : ∀ p ∈ REGISTER_MAP, p.2 < 32 := by decide
    exact hall _ (lookup_mem hl)

theorem assembleParts_beq (o0 o1 o2 : String) (tbl : SymTab) (addr : Nat) :
    assembleParts ["beq", o0, o1, o2] tbl addr =
      (encodeBranch ⟨.I, 0x04⟩ o0 o1 o2 tbl addr >>= finishCode) := rfl

theorem assembleParts_bne (o0 o1 o2 : String) (tbl : SymTab) (addr : Nat) :
    assembleParts ["bne", o0, o1, o2] tbl addr =
      (encodeBranch ⟨.I, 0x05⟩ o0 o1 o2 tbl addr >>= finishCode) := rfl

theorem assembleParts_addi (o0 o1 o2 : String) (tbl : SymTab) (addr : Nat) :
    assembleParts ["addi", o0, o1, o2] tbl addr =
      (encodeAddi ⟨.I, 0x08⟩ o0 o1 o2 >>= finishCode) := rfl

theorem assembleParts_lw (o0 o1 o2 : String) (tbl : SymTab) (addr : Nat) :
    assembleParts ["lw", o0, o1, o2] tbl addr =
      (encodeMem ⟨.I, 0x23⟩ o0 o1 o2 >>= finishCode) := rfl

theorem assembleParts_sw (o0 o1 o2 : String) (tbl : SymTab) (addr : Nat) :
    assembleParts ["sw", o0, o1, o2] tbl addr =
      (encodeMem ⟨.I, 0x2b⟩ o0 o1 o2 >>= finishCode) := rfl

theorem assembleParts_sll (o0 o1 o2 : String) (tbl : SymTab) (addr : Nat) :
    assembleParts ["sll", o0, o1, o2] tbl addr =
      (encodeSll ⟨.R, 0x00⟩ o0 o1 o2 >>= finishCode) := rfl

theorem assembleParts_j (o0 : String) (tbl : SymTab) (addr : Nat) :
    assembleParts ["j", o0] tbl addr =
      (encodeJ ⟨.J, 0x02⟩ o0 tbl >>= finishCode) := rfl

/-! ### Structure of the two passes -/

theorem except_pure_bind {ε α β : Type} (a : α) (f : α → Except ε β) :
    ((pure a : Except ε α) >>= f) = f a := rfl

theorem lineStripped_empty_residue {l : String}
    (h : (lineStripped l).isEmpty = true) : lineResidue l = [] := by
  have hnil : lineStripped l = [] := by
    cases he : lineStripped l
    · rfl
    · rw [he] at h; cases h
  rw [lineResidue, hnil]
  rfl

theorem isInstrLine_of_blank {l : String}
    (h : (lineStripped l).isEmpty = true) : isInstrLine l = false := by
  rw [isInstrLine, lineStripped_empty_residue h]
  rfl

theorem instrCount_nil : instrCount [] = 0 := rfl

theorem instrCount_cons (l : String) (ls : List String) :
    instrCount (l :: ls) = (if isInstrLine l then 1 else 0) + instrCount ls := by
  rw [instrCount, instrCount, List.filter_cons]
  by_cases h : isInstrLine l
  · rw [if_pos h, if_pos h, List.length_cons]
    omega
  · rw [if_neg h, if_neg h]
    omega

theorem fp_go_shape (ls : List String) :
    ∀ (tbl : SymTab) (addr : Nat),
      (∃ t, first_pass_go tbl addr ls = .ok t) ∨
        first_pass_go tbl addr ls = .error .duplicateLabel := by
  induction ls with
  | nil => intro tbl addr; exact .inl ⟨tbl, rfl⟩
  | cons l ls ih =>
    intro tbl addr
    simp only [first_pass_go]
    by_cases hb : (lineStripped l).isEmpty
    · rw [if_pos hb]
      exact ih tbl addr
    · rw [if_neg hb]
      cases hm : matchLabel (lineStripped l) with
      | none => exact ih tbl (addr + 4)
      | some p =>
        obtain ⟨lab, instr⟩ := p
        simp only []
        by_cases hdup : (List.lookup lab tbl).isSome
        · rw [if_pos hdup]
          exact .inr rfl
        · rw [if_neg hdup]
          by_cases hi : instr.isEmpty
          · rw [if_pos hi]
            exact ih ((lab, addr) :: tbl) addr
          · rw [if_neg hi]
            exact ih ((lab, addr) :: tbl) (addr + 4)

theorem definedLabels_cons_none {l : String} {ls : List String}
    (hm : matchLabel (lineStripped l) = none) :
    definedLabels (l :: ls) = definedLabels ls := by
  simp [definedLabels, List.filterMap_cons, hm]

theorem definedLabels_cons_some {l : String} {ls : List String} {lab : String}
    {r : List Char} (hm : matchLabel (lineStripped l) = some (lab, r)) :
    definedLabels (l :: ls) = lab :: definedLabels ls := by
  simp [definedLabels, List.filterMap_cons, hm]

theorem matchLabel_of_blank {l : String}
    (hb : (lineStripped l).isEmpty = true) :
    matchLabel (lineStripped l) = none := by
  have hnil : lineStripped l = [] := by
    cases he : lineStripped l
    · rfl
    · rw [he] at hb; cases hb
  rw [hnil]
  rfl

theorem lookup_cons_eq {β : Type} (lab : String) (v : β) (tbl : List (String × β)) :
    List.lookup lab ((lab, v) :: tbl) = some v := by
  rw [List.lookup_cons]
  simp

theorem lookup_cons_ne {β : Type} {lab lab' : String} (v : β)
    (tbl : List (String × β)) (h : lab ≠ lab') :
    List.lookup lab ((lab', v) :: tbl) = List.lookup lab tbl := by
  rw [List.lookup_cons]
  have hbeq : (lab == lab') = false := beq_eq_false_iff_ne.mpr h
  simp [hbeq]

theorem lookup_cons_none {β : Type} {lab lab' : String} {v : β}
    {tbl : List (String × β)}
    (h : List.lookup lab ((lab', v) :: tbl) = none) :
    lab ≠ lab' ∧ List.lookup lab tbl = none := by
  by_cases he : lab = lab'
  · subst he
    rw [lookup_cons_eq] at h
    cases h
  · rw [lookup_cons_ne _ _ he] at h
    exact ⟨he, h⟩

theorem fp_go_nodup (ls : List String) :
    ∀ (tbl : SymTab) (addr : Nat) (t : SymTab),
      first_pass_go tbl addr ls = .ok t →
        (definedLabels ls).Nodup ∧
          ∀ lab ∈ definedLabels ls, List.lookup lab tbl = none := by
  induction ls with
  | nil =>
    intro tbl addr t h
    exact ⟨List.nodup_nil, by intro lab hlab; cases hlab⟩
  | cons l ls ih =>
    intro tbl addr t h
    simp only [first_pass_go] at h
    by_cases hb : (lineStripped l).isEmpty
    · rw [if_pos hb] at h
      rw [definedLabels_cons_none (matchLabel_of_blank hb)]
      exact ih tbl addr t h
    · rw [if_neg hb] at h
      cases hm : matchLabel (lineStripped l) with
      | none =>
        rw [hm] at h
        rw [definedLabels_cons_none hm]
        exact ih tbl (addr + 4) t h
      | some p =>
        obtain ⟨lab, instr⟩ := p
        rw [hm] at h
        simp only [] at h
        rw [definedLabels_cons_some hm]
        by_cases hdup : (List.lookup lab tbl).isSome
        · rw [if_pos hdup] at h
          cases h
        · rw [if_neg hdup] at h
          have hnone : List.lookup lab tbl = none := by
            cases hx : List.lookup lab tbl
            · rfl
            · rw [hx] at hdup; exact absurd rfl hdup
          have hrest :
              (definedLabels ls).Nodup ∧
                ∀ lab' ∈ definedLabels ls,
                  List.lookup lab' ((lab, addr) :: tbl) = none := by
            by_cases hi : instr.isEmpty
            · rw [if_pos hi] at h
              exact ih _ _ t h
            · rw [if_neg hi] at h
              exact ih _ _ t h
          refine ⟨List.nodup_cons.mpr ⟨?_, hrest.1⟩, ?_⟩
          · intro hmem
            exact absurd ((lookup_cons_none (hrest.2 lab hmem)).1) (by simp)
          · intro lab' hmem
            rcases List.mem_cons.mp hmem with rfl | hmem'
            · exact hnone
            · exact (lookup_cons_none (hrest.2 lab' hmem')).2

theorem isInstrLine_match_some {l : String} {lab : String} {r : List Char}
    (hm : matchLabel (lineStripped l) = some (lab, r)) :
    isInstrLine l = !r.isEmpty := by
  simp only [isInstrLine, lineResidue, hm]

theorem isInstrLine_match_none {l : String}
    (hm : matchLabel (lineStripped l) = none) :
    isInstrLine l = !(lineStripped l).isEmpty := by
  simp only [isInstrLine, lineResidue, hm]

theorem fp_go_preserve (ls : List String) :
    ∀ (tbl : SymTab) (addr : Nat) (t : SymTab),
      first_pass_go tbl addr ls = .ok t →
        ∀ (lab : String) (v : Nat), List.lookup lab tbl = some v →
          List.lookup lab t = some v := by
  induction ls with
  | nil =>
    intro tbl addr t h lab v hv
    injection h with h
    subst h
    exact hv
  | cons l ls ih =>
    intro tbl addr t h lab v hv
    simp only [first_pass_go] at h
    by_cases hb : (lineStripped l).isEmpty
    · rw [if_pos hb] at h
      exact ih tbl addr t h lab v hv
    · rw [if_neg hb] at h
      cases hm : matchLabel (lineStripped l) with
      | none =>
        rw [hm] at h
        exact ih tbl (addr + 4) t h lab v hv
      | some p =>
        obtain ⟨lab', instr⟩ := p
        rw [hm] at h
        simp only [] at h
        by_cases hdup : (List.lookup lab' tbl).isSome
        · rw [if_pos hdup] at h; cases h
        · rw [if_neg hdup] at h
          have hne : lab ≠ lab' := by
            intro he
            subst he
            rw [hv] at hdup
            exact hdup rfl
          have hv' : List.lookup lab ((lab', addr) :: tbl) = some v := by
            rw [lookup_cons_ne _ _ hne]
            exact hv
          by_cases hi : instr.isEmpty
          · rw [if_pos hi] at h
            exact ih _ _ t h lab v hv'
          · rw [if_neg hi] at h
            exact ih _ _ t h lab v hv'

theorem fp_go_label_addr (ls : List String) :
    ∀ (tbl : SymTab) (addr : Nat) (t : SymTab),
      first_pass_go tbl addr ls = .ok t →
        ∀ (i : Nat) (hi : i < ls.length) (lab : String) (r : List Char),
          matchLabel (lineStripped (ls.get ⟨i, hi⟩)) = some (lab, r) →
          List.lookup lab t = some (addr + 4 * instrCount (ls.take i)) := by
  induction ls with
  | nil =>
    intro tbl addr t h i hi
    rw [List.length_nil] at hi
    exact absurd hi (by omega)
  | cons l ls ih =>
    intro tbl addr t h i hi lab r hlab
    simp only [first_pass_go] at h
    cases i with
    | zero =>
      have hlab0 : matchLabel (lineStripped l) = some (lab, r) := hlab
      have hb : ¬ (lineStripped l).isEmpty = true := by
        intro hb
        rw [matchLabel_of_blank hb] at hlab0
        cases hlab0
      rw [if_neg hb, hlab0] at h
      simp only [] at h
      by_cases hdup : (List.lookup lab tbl).isSome
      · rw [if_pos hdup] at h; cases h
      · rw [if_neg hdup] at h
        have hself : List.lookup lab ((lab, addr) :: tbl) = some addr :=
          lookup_cons_eq _ _ _
        have hgoal : addr + 4 * instrCount (List.take 0 (l :: ls)) = addr := by
          simp [instrCount_nil]
        rw [hgoal]
        by_cases hi2 : r.isEmpty
        · rw [if_pos hi2] at h
          exact fp_go_preserve ls _ _ t h lab addr hself
        · rw [if_neg hi2] at h
          exact fp_go_preserve ls _ _ t h lab addr hself
    | succ i =>
      have hi' : i < ls.length := by
        have := hi
        simp only [List.length_cons] at this
        omega
      have hlab' : matchLabel (lineStripped (ls.get ⟨i, hi'⟩)) = some (lab, r) := by
        have : (l :: ls).get ⟨i + 1, hi⟩ = ls.get ⟨i, hi'⟩ := rfl
        rw [← this]
        exact hlab
      have htake : List.take (i + 1) (l :: ls) = l :: List.take i ls := rfl
      rw [htake, instrCount_cons]
      by_cases hb : (lineStripped l).isEmpty
      · rw [if_pos hb] at h
        have hzero : (if isInstrLine l then 1 else 0) = 0 := by
          rw [isInstrLine_of_blank hb]
          rfl
        rw [hzero]
        rw [ih tbl addr t h i hi' lab r hlab']
        exact congrArg _ (by omega)
      · rw [if_neg hb] at h
        have hbf : (lineStripped l).isEmpty = false := by
          cases hx : (lineStripped l).isEmpty
          · rfl
          · exact absurd hx hb
        cases hm : matchLabel (lineStripped l) with
        | none =>
          rw [hm] at h
          have hone : (if isInstrLine l then 1 else 0) = 1 := by
            rw [isInstrLine_match_none hm, hbf]
            rfl
          rw [hone]
          rw [ih tbl (addr + 4) t h i hi' lab r hlab']
          exact congrArg _ (by omega)
        | some p =>
          obtain ⟨lab', instr⟩ := p
          rw [hm] at h
          simp only [] at h
          by_cases hdup : (List.lookup lab' tbl).isSome
          · rw [if_pos hdup] at h; cases h
          · rw [if_neg hdup] at h
            by_cases hi2 : instr.isEmpty
            · rw [if_pos hi2] at h
              have hzero : (if isInstrLine l then 1 else 0) = 0 := by
                rw [isInstrLine_match_some hm, hi2]
                rfl
              rw [hzero]
              rw [ih _ addr t h i hi' lab r hlab']
              exact congrArg _ (by omega)
            · rw [if_neg hi2] at h
              have hif : instr.isEmpty = false := by
                cases hx : instr.isEmpty
                · rfl
                · exact absurd hx hi2
              have hone : (if isInstrLine l then 1 else 0) = 1 := by
                rw [isInstrLine_match_some hm, hif]
                rfl
              rw [hone]
              rw [ih _ (addr + 4) t h i hi' lab r hlab']
              exact congrArg _ (by omega)

theorem sp_go_spec (ls : List String) :
    ∀ (tbl : SymTab) (k : Nat),
      second_pass_go tbl (4 * k) ls = second_pass_spec_go tbl k ls := by
  induction ls with
  | nil => intro tbl k; rfl
  | cons l ls ih =>
    intro tbl k
    simp only [second_pass_go, second_pass_spec_go]
    by_cases hb : (lineStripped l).isEmpty
    · rw [if_pos hb, if_pos hb]
      exact ih tbl k
    · rw [if_neg hb, if_neg hb]
      cases hm : matchLabel (lineStripped l) with
      | some p =>
        obtain ⟨lab2, r⟩ := p
        simp only []
        by_cases hi : r.isEmpty
        · rw [if_pos hi, if_pos hi, ih tbl k]
        · rw [if_neg hi, if_neg hi]
          cases ha : assemble r.asString tbl (4 * k) with
          | error e => rfl
          | ok code =>
            simp only []
            have h4 : 4 * k + 4 = 4 * (k + 1) := by ring
            rw [h4, ih tbl (k + 1)]
      | none =>
        simp only []
        rw [if_neg hb, if_neg hb]
        cases ha : assemble (lineStripped l).asString tbl (4 * k) with
        | error e => rfl
        | ok code =>
          simp only []
          have h4 : 4 * k + 4 = 4 * (k + 1) := by ring
          rw [h4, ih tbl (k + 1)]

theorem assemble_ok_shape (line : String) (tbl : SymTab) (addr : Nat) (s : String)
    (h : assemble line tbl addr = .ok s) :
    (pyTokens line = [] ∧ s = "") ∨ ∃ w, s = render w := by
  unfold assemble at h
  cases hp : pyTokens line with
  | nil =>
    rw [hp] at h
    simp only [assembleParts] at h
    injection h with h
    exact .inl ⟨rfl, h.symm⟩
  | cons p0 ops =>
    rw [hp] at h
    simp only [assembleParts] at h
    cases hl : List.lookup ((p0.toList.map Char.toLower).asString) INSTRUCTIONS with
    | none =>
      rw [hl] at h
      simp only [] at h
      exact Except.noConfusion h
    | some info =>
      rw [hl] at h
      simp only [] at h
      obtain ⟨c, hc, hf⟩ := except_bind_eq_ok h
      rw [finishCode] at hf
      cases hpi : pyIntBase2 c with
      | none =>
        rw [hpi] at hf
        simp only [] at hf
        exact Except.noConfusion hf
      | some v =>
        rw [hpi] at hf
        simp only [] at hf
        injection hf with hf
        exact .inr ⟨v, hf.symm⟩

theorem sp_go_shape (ls : List String) :
    ∀ (tbl : SymTab) (addr : Nat) (res : List (String × Option String)),
      second_pass_go tbl addr ls = .ok res →
        res.map Prod.fst = ls.filter nonBlankLine ∧
        (∀ p ∈ res, (p.2 = none ↔ (lineResidue p.1).isEmpty = true)) ∧
        (∀ p ∈ res, ∀ s : String, p.2 = some s →
          (pyTokens (lineResidue p.1).asString = [] ∧ s = "") ∨
            ∃ w, s = render w) := by
  induction ls with
  | nil =>
    intro tbl addr res h
    injection h with h
    subst h
    refine ⟨rfl, ?_, ?_⟩
    · intro p hp; cases hp
    · intro p hp; cases hp
  | cons l ls ih =>
    intro tbl addr res h
    simp only [second_pass_go] at h
    by_cases hb : (lineStripped l).isEmpty
    · rw [if_pos hb] at h
      have hnb : nonBlankLine l = false := by
        rw [nonBlankLine, hb]
        rfl
      rw [List.filter_cons, hnb]
      simpa using ih tbl addr res h
    · rw [if_neg hb] at h
      have hnb : nonBlankLine l = true := by
        rw [nonBlankLine]
        cases hx : (lineStripped l).isEmpty
        · rfl
        · exact absurd hx hb
      rw [List.filter_cons, hnb]
      simp only [if_pos rfl]
      cases hm : matchLabel (lineStripped l) with
      | some p =>
        obtain ⟨lab2, r⟩ := p
        rw [hm] at h
        simp only [] at h
        have hres : lineResidue l = r := by
          simp only [lineResidue, hm]
        by_cases hi : r.isEmpty
        · rw [if_pos hi] at h
          cases hrec : second_pass_go tbl addr ls with
          | error e => rw [hrec] at h; exact Except.noConfusion h
          | ok rest =>
            rw [hrec] at h
            simp only [] at h
            injection h with h
            subst h
            obtain ⟨ih1, ih2, ih3⟩ := ih tbl addr rest hrec
            refine ⟨?_, ?_, ?_⟩
            · simp [ih1]
            · intro p hp
              rcases List.mem_cons.mp hp with rfl | hp'
              · simp [hres, hi]
              · exact ih2 p hp'
            · intro p hp s hs
              rcases List.mem_cons.mp hp with rfl | hp'
              · cases hs
              · exact ih3 p hp' s hs
        · rw [if_neg hi] at h
          cases ha : assemble r.asString tbl addr with
          | error e => rw [ha] at h; exact Except.noConfusion h
          | ok code =>
            rw [ha] at h
            simp only [] at h
            cases hrec : second_pass_go tbl (addr + 4) ls with
            | error e => rw [hrec] at h; exact Except.noConfusion h
            | ok rest =>
              rw [hrec] at h
              simp only [] at h
              injection h with h
              subst h
              obtain ⟨ih1, ih2, ih3⟩ := ih tbl (addr + 4) rest hrec
              refine ⟨?_, ?_, ?_⟩
              · simp [ih1]
              · intro p hp
                rcases List.mem_cons.mp hp with rfl | hp'
                · simp only [hres]
                  constructor
                  · intro hx; cases hx
                  · intro hx; rw [hx] at hi; exact absurd rfl hi
                · exact ih2 p hp'
              · intro p hp s hs
                rcases List.mem_cons.mp hp with rfl | hp'
                · injection hs with hs
                  subst hs
                  rw [hres]
                  exact assemble_ok_shape _ tbl addr code ha
                · exact ih3 p hp' s hs
      | none =>
        rw [hm] at h
        simp only [] at h
        have hres : lineResidue l = lineStripped l := by
          simp only [lineResidue, hm]
        rw [if_neg hb] at h
        cases ha : assemble (lineStripped l).asString tbl addr with
        | error e => rw [ha] at h; exact Except.noConfusion h
        | ok code =>
          rw [ha] at h
          simp only [] at h
          cases hrec : second_pass_go tbl (addr + 4) ls with
          | error e => rw [hrec] at h; exact Except.noConfusion h
          | ok rest =>
            rw [hrec] at h
            simp only [] at h
            injection h with h
            subst h
            obtain ⟨ih1, ih2, ih3⟩ := ih tbl (addr + 4) rest hrec
            refine ⟨?_, ?_, ?_⟩
            · simp [ih1]
            · intro p hp
              rcases List.mem_cons.mp hp with rfl | hp'
              · simp only [hres]
                constructor
                · intro hx; cases hx
                · intro hx; rw [hx] at hb; exact absurd rfl hb
              · exact ih2 p hp'
            · intro p hp s hs
              rcases List.mem_cons.mp hp with rfl | hp'
              · injection hs with hs
                subst hs
                rw [hres]
                exact assemble_ok_shape _ tbl addr code ha
              · exact ih3 p hp' s hs

theorem instrCount_take_eq (lines : List String) (i j : Nat) (hij : i ≤ j) :
    j ≤ lines.length →
    (∀ k (hk : k < lines.length), i ≤ k → k < j →
      isInstrLine (lines.get ⟨k, hk⟩) = false) →
    instrCount (lines.take j) = instrCount (lines.take i) := by
  induction j, hij using Nat.le_induction with
  | base => intro _ _; rfl
  | succ j hij ih =>
    intro hj hgap
    have hjl : j < lines.length := by omega
    have htake : lines.take (j + 1) = lines.take j ++ [lines.get ⟨j, hjl⟩] := by
      rw [List.take_succ, List.getElem?_eq_getElem hjl]
      rfl
    rw [htake]
    have happ : instrCount (lines.take j ++ [lines.get ⟨j, hjl⟩]) =
        instrCount (lines.take j) + instrCount [lines.get ⟨j, hjl⟩] := by
      rw [instrCount, instrCount, instrCount, List.filter_append,
        List.length_append]
    rw [happ]
    have hz : instrCount [lines.get ⟨j, hjl⟩] = 0 := by
      rw [instrCount_cons, hgap j hjl (by omega) (by omega), instrCount_nil]
      rfl
    rw [hz, ih (by omega) (fun k hk hik hkj => hgap k hk hik (by omega))]
    omega

/-! ### Reduced forms of the per-instruction encoders -/

theorem encodeAddi_step (info : InstrInfo) (o0 o1 o2 : String) (rt rs : Nat)
    (h0 : parse_register o0 = .ok rt) (h1 : parse_register o1 = .ok rs) :
    encodeAddi info o0 o1 o2 =
      match parsePyInt o2 with
      | none => .error .invalidImmediate
      | some imm => .ok (to_binary (info.code : Int) 6 ++ to_binary (rs : Int) 5 ++
          to_binary (rt : Int) 5 ++ to_binary imm 16) := by
  rw [encodeAddi, h0, except_bind_ok, h1, except_bind_ok]
  cases parsePyInt o2 <;> rfl

theorem encodeMem_step (info : InstrInfo) (o0 o1 o2 : String) (rt rs : Nat)
    (h0 : parse_register o0 = .ok rt) (h1 : parse_register o2 = .ok rs) :
    encodeMem info o0 o1 o2 =
      match parsePyInt o1 with
      | none => .error .invalidImmediate
      | some imm => .ok (to_binary (info.code : Int) 6 ++ to_binary (rs : Int) 5 ++
          to_binary (rt : Int) 5 ++ to_binary imm 16) := by
  rw [encodeMem, h0, except_bind_ok, h1, except_bind_ok]
  cases parsePyInt o1 <;> rfl

theorem encodeSll_step (info : InstrInfo) (o0 o1 o2 : String) (rd rt : Nat)
    (h0 : parse_register o0 = .ok rd) (h1 : parse_register o1 = .ok rt) :
    encodeSll info o0 o1 o2 =
      match parsePyInt o2 with
      | none => .error .invalidShiftAmount
      | some sh =>
        if 0 ≤ sh ∧ sh < 32 then
          .ok (('0' :: '0' :: '0' :: '0' :: '0' :: '0' :: []) ++ to_binary 0 5 ++
            to_binary (rt : Int) 5 ++ to_binary (rd : Int) 5 ++ to_binary sh 5 ++
            to_binary (info.code : Int) 6)
        else .error .invalidShiftAmount := by
  rw [encodeSll, h0, except_bind_ok, h1, except_bind_ok]
  cases parsePyInt o2 <;> rfl

theorem encodeBranch_label (info : InstrInfo) (o0 o1 o2 : String) (tbl : SymTab)
    (addr : Nat) (rs rt t : Nat)
    (h0 : parse_register o0 = .ok rs) (h1 : parse_register o1 = .ok rt)
    (hl : List.lookup o2 tbl = some t) :
    encodeBranch info o0 o1 o2 tbl addr =
      (if -32768 ≤ ((t : Int) - ((addr : Int) + 4)) / 4 ∧
          ((t : Int) - ((addr : Int) + 4)) / 4 ≤ 32767 then
        .ok (to_binary (info.code : Int) 6 ++ to_binary (rs : Int) 5 ++
          to_binary (rt : Int) 5 ++
          to_binary (((t : Int) - ((addr : Int) + 4)) / 4) 16)
      else .error .branchOffsetOutOfRange) := by
  rw [encodeBranch, h0, except_bind_ok, h1, except_bind_ok, hl]
  rfl

theorem encodeBranch_int (info : InstrInfo) (o0 o1 o2 : String) (tbl : SymTab)
    (addr : Nat) (rs rt : Nat) (imm : Int)
    (h0 : parse_register o0 = .ok rs) (h1 : parse_register o1 = .ok rt)
    (hl : List.lookup o2 tbl = none) (hs : parsePyInt o2 = some imm) :
    encodeBranch info o0 o1 o2 tbl addr =
      (if -32768 ≤ imm ∧ imm ≤ 32767 then
        .ok (to_binary (info.code : Int) 6 ++ to_binary (rs : Int) 5 ++
          to_binary (rt : Int) 5 ++ to_binary imm 16)
      else .error .branchOffsetOutOfRange) := by
  rw [encodeBranch, h0, except_bind_ok, h1, except_bind_ok, hl, hs]
  rfl

theorem encodeBranch_none (info : InstrInfo) (o0 o1 o2 : String) (tbl : SymTab)
    (addr : Nat) (rs rt : Nat)
    (h0 : parse_register o0 = .ok rs) (h1 : parse_register o1 = .ok rt)
    (hl : List.lookup o2 tbl = none) (hs : parsePyInt o2 = none) :
    encodeBranch info o0 o1 o2 tbl addr = .error .invalidLabelOrImmediate := by
  rw [encodeBranch, h0, except_bind_ok, h1, except_bind_ok, hl, hs]
  rfl

theorem encodeJ_label (info : InstrInfo) (o0 : String) (tbl : SymTab) (t : Nat)
    (hl : List.lookup o0 tbl = some t) :
    encodeJ info o0 tbl =
      (if (t : Int) % 4 ≠ 0 then .error .unalignedJumpTarget
      else .ok (to_binary (info.code : Int) 6 ++ to_binary ((t : Int) / 4) 26)) := by
  rw [encodeJ, hl]
  rfl

theorem encodeJ_int (info : InstrInfo) (o0 : String) (tbl : SymTab) (t : Int)
    (hl : List.lookup o0 tbl = none) (hs : parsePyInt o0 = some t) :
    encodeJ info o0 tbl =
      (if t % 4 ≠ 0 then .error .unalignedJumpTarget
      else .ok (to_binary (info.code : Int) 6 ++ to_binary (t / 4) 26)) := by
  rw [encodeJ, hl, hs]
  rfl

theorem encodeJ_none (info : InstrInfo) (o0 : String) (tbl : SymTab)
    (hl : List.lookup o0 tbl = none) (hs : parsePyInt o0 = none) :
    encodeJ info o0 tbl = .error .invalidLabelOrAddress := by
  rw [encodeJ, hl, hs]
  rfl

/-! ### Claims -/

/-- C1: for every beq/bne instruction whose third operand is a label in the
symbol table (or, failing that, parses directly as an integer immediate), the
encoded 16-bit immediate field is the word offset (target − (addr+4)) / 4
(floor division, matching the source's arithmetic right shift by 2; for the
word-aligned addresses produced by the passes the difference is exact), and
encoding fails with BranchOffsetOutOfRange exactly when that immediate lies
outside [-32768, 32767]. -/
theorem c1_branch_offset (mn o0 o1 lab : String) (tbl : SymTab) (addr : Nat)
    (rs rt : Nat) (imm : Int) (hmn : mn = "beq" ∨ mn = "bne")
    (h0 : parse_register o0 = .ok rs) (h1 : parse_register o1 = .ok rt)
    (himm : (∃ t : Nat, List.lookup lab tbl = some t ∧
        imm = ((t : Int) - ((addr : Int) + 4)) / 4) ∨
      (List.lookup lab tbl = none ∧ parsePyInt lab = some imm)) :
    (assembleParts [mn, o0, o1, lab] tbl addr = .error .branchOffsetOutOfRange ↔
      (imm < -32768 ∨ 32767 < imm)) ∧
    (-32768 ≤ imm → imm ≤ 32767 →
      assembleParts [mn, o0, o1, lab] tbl addr =
        .ok (render ((if mn = "beq" then 4 else 5) * 2 ^ 26 + rs * 2 ^ 21 +
          rt * 2 ^ 16 + (imm % 65536).toNat))) := by
  have hbr : ∀ info : InstrInfo, encodeBranch info o0 o1 lab tbl addr =
      (if -32768 ≤ imm ∧ imm ≤ 32767 then
        .ok (to_binary (info.code : Int) 6 ++ to_binary (rs : Int) 5 ++
          to_binary (rt : Int) 5 ++ to_binary imm 16)
      else .error .branchOffsetOutOfRange) := by
    intro info
    rcases himm with ⟨t, hl, hIm⟩ | ⟨hl, hs⟩
    · rw [encodeBranch_label info o0 o1 lab tbl addr rs rt t h0 h1 hl, ← hIm]
    · exact encodeBranch_int info o0 o1 lab tbl addr rs rt imm h0 h1 hl hs
  have hok : -32768 ≤ imm → imm ≤ 32767 →
      assembleParts [mn, o0, o1, lab] tbl addr =
        .ok (render ((if mn = "beq" then 4 else 5) * 2 ^ 26 + rs * 2 ^ 21 +
          rt * 2 ^ 16 + (imm % 65536).toNat)) := by
    intro hlo hhi
    rcases hmn with rfl | rfl
    · rw [assembleParts_beq, hbr, if_pos ⟨hlo, hhi⟩, except_bind_ok]
      exact encodeI_word 4 rs rt imm (by norm_num) (parse_register_lt h0)
        (parse_register_lt h1) (by omega) (by omega)
    · rw [assembleParts_bne, hbr, if_pos ⟨hlo, hhi⟩, except_bind_ok]
      exact encodeI_word 5 rs rt imm (by norm_num) (parse_register_lt h0)
        (parse_register_lt h1) (by omega) (by omega)
  refine ⟨⟨?_, ?_⟩, hok⟩
  · intro herr
    by_contra hcon
    push_neg at hcon
    rw [hok hcon.1 hcon.2] at herr
    exact Except.noConfusion herr
  · intro hout
    have hnr : ¬(-32768 ≤ imm ∧ imm ≤ 32767) := by omega
    rcases hmn with rfl | rfl
    · rw [assembleParts_beq, hbr, if_neg hnr]
      rfl
    · rw [assembleParts_bne, hbr, if_neg hnr]
      rfl

/-- Witness for C1: the specification's own example, label at address 8
referenced by a branch at address 0, encodes word offset 1. -/
theorem c1_branch_offset_witness :
    assembleParts ["beq", "$zero", "$zero", "L"] [("L", 8)] 0 =
      .ok (render (4 * 2 ^ 26 + 0 * 2 ^ 21 + 0 * 2 ^ 16 + 1)) := by
  exact (c1_branch_offset "beq" "$zero" "$zero" "L" [("L", 8)] 0 0 0 1
    (Or.inl rfl) (by rfl) (by rfl)
    (Or.inl ⟨8, rfl, by decide⟩)).2 (by decide) (by decide)

/-- Counterexample for C2: encoding is not total on parseable immediates and
does not truncate values above 65535.  With immediate -65537 the addi encoder
fails (the two's-complement pre-shift leaves a negative value, the formatted
string contains a sign character, and the final binary parse raises); with
immediate 65536 it succeeds but emits 0x4011_0000, a word whose upper fields
are shifted by the 17-bit immediate string, not the truncated word
0x2008_0000. -/
theorem c2_counterexample :
    assembleParts ["addi", "$t0", "$zero", "-65537"] [] 0 =
        .error .internalBinaryParse ∧
    assembleParts ["addi", "$t0", "$zero", "65536"] [] 0 = .ok "0x4011_0000" ∧
    render (8 * 2 ^ 26 + 0 * 2 ^ 21 + 8 * 2 ^ 16 + 65536 % 65536) =
        "0x2008_0000" ∧
    ("0x4011_0000" : String) ≠ "0x2008_0000" :=
  ⟨rfl, rfl, rfl, by decide⟩

/-- C2 (amended): for addi/lw/sw immediates in [-65536, 65535] encoding never
fails and the 16-bit immediate field is the two's-complement truncation
imm mod 2^16, giving a well-formed 32-bit word; below -65536 encoding fails
with an internal binary-parse error, and above 65535 the emitted binary
string is wider than 32 bits, shifting the upper fields. -/
theorem c2_immediate_truncation (t0 t1 s : String) (tbl : SymTab) (addr : Nat)
    (r0 r1 : Nat) (imm : Int)
    (h0 : parse_register t0 = .ok r0) (h1 : parse_register t1 = .ok r1)
    (hs : parsePyInt s = some imm) (hlo : -65536 ≤ imm) (hhi : imm ≤ 65535) :
    assembleParts ["addi", t0, t1, s] tbl addr =
        .ok (render (8 * 2 ^ 26 + r1 * 2 ^ 21 + r0 * 2 ^ 16 +
          (imm % 65536).toNat)) ∧
    assembleParts ["lw", t0, s, t1] tbl addr =
        .ok (render (35 * 2 ^ 26 + r1 * 2 ^ 21 + r0 * 2 ^ 16 +
          (imm % 65536).toNat)) ∧
    assembleParts ["sw", t0, s, t1] tbl addr =
        .ok (render (43 * 2 ^ 26 + r1 * 2 ^ 21 + r0 * 2 ^ 16 +
          (imm % 65536).toNat)) := by
  refine ⟨?_, ?_, ?_⟩
  · rw [assembleParts_addi, encodeAddi_step _ t0 t1 s r0 r1 h0 h1, hs,
      except_bind_ok]
    exact encodeI_word 8 r1 r0 imm (by norm_num) (parse_register_lt h1)
      (parse_register_lt h0) hlo (by omega)
  · rw [assembleParts_lw, encodeMem_step _ t0 s t1 r0 r1 h0 h1, hs,
      except_bind_ok]
    exact encodeI_word 35 r1 r0 imm (by norm_num) (parse_register_lt h1)
      (parse_register_lt h0) hlo (by omega)
  · rw [assembleParts_sw, encodeMem_step _ t0 s t1 r0 r1 h0 h1, hs,
      except_bind_ok]
    exact encodeI_word 43 r1 r0 imm (by norm_num) (parse_register_lt h1)
      (parse_register_lt h0) hlo (by omega)

/-- Witness for the amended C2: addi with immediate -1 truncates to field
0xffff. -/
theorem c2_immediate_truncation_witness :
    assembleParts ["addi", "$t0", "$zero", "-1"] [] 0 =
      .ok (render (8 * 2 ^ 26 + 0 * 2 ^ 21 + 8 * 2 ^ 16 + 65535)) := by
  exact (c2_immediate_truncation "$t0" "$zero" "-1" [] 0 8 0 (-1)
    (by rfl) (by rfl) (by rfl) (by decide) (by decide)).1

/-- Counterexample for C3: a blank line produces no result at all, so a
successful run does not return one result per input line (here 1 input line,
0 results). -/
theorem c3_counterexample :
    second_pass [""] [] = .ok [] ∧ ([""] : List String).length = 1 ∧
      ([] : List (String × Option String)).length ≠ 1 :=
  ⟨rfl, rfl, by decide⟩

/-- C3 (amended): on a successful run the second pass returns one result per
non-blank input line, in order (the first components are exactly the
non-blank lines); a line yields "no code" precisely when its residue after
label stripping is empty, and an encoded line carries the encoder's output
string (the 0x rendering of the encoded word, or the empty string for a
residue with no tokens); blank and comment-only lines yield no result. -/
theorem c3_per_line_results (lines : List String) (tbl : SymTab)
    (res : List (String × Option String))
    (h : second_pass lines tbl = .ok res) :
    res.map Prod.fst = lines.filter nonBlankLine ∧
    (∀ p ∈ res, (p.2 = none ↔ (lineResidue p.1).isEmpty = true)) ∧
    (∀ p ∈ res, ∀ s : String, p.2 = some s →
      (pyTokens (lineResidue p.1).asString = [] ∧ s = "") ∨
        ∃ w, s = render w) :=
  sp_go_shape lines tbl 0 res h

/-- Witness for the amended C3: a program with an instruction line, a blank
line and a label-only line yields results for exactly the two non-blank
lines. -/
theorem c3_per_line_results_witness :
    second_pass ["start: add $t0, $t0, $t0", "", "end:"] [] =
      .ok [("start: add $t0, $t0, $t0", some "0x0108_4020"), ("end:", none)] ∧
    [("start: add $t0, $t0, $t0", some "0x0108_4020"),
        (("end:" : String), (none : Option String))].map Prod.fst =
      ["start: add $t0, $t0, $t0", "", "end:"].filter nonBlankLine := by
  refine ⟨rfl, ?_⟩
  exact (c3_per_line_results ["start: add $t0, $t0, $t0", "", "end:"] [] _ rfl).1

/-- Counterexample for C4: the helper pads to a minimum width but never
truncates, so 65536 formatted in 16 bits yields 17 binary digits, not 16. -/
theorem c4_counterexample :
    (to_binary 65536 16).length = 17 ∧ (17 : Nat) ≠ 16 :=
  ⟨rfl, by decide⟩

/-- C4 (amended): for a signed integer in [-2^bits, 2^bits) and a positive
width, the helper produces exactly `bits` binary digits, two's-complement for
negative values (2^bits is added before formatting), and the digits
reinterpreted as an unsigned number give the value modulo 2^bits. -/
theorem c4_to_binary_two_complement (n : Int) (bits : Nat) (hb : 0 < bits)
    (h1 : -((2 : Int) ^ bits) ≤ n) (h2 : n < (2 : Int) ^ bits) :
    (to_binary n bits).length = bits ∧
    pyIntBase2 (to_binary n bits) = some ((n % ((2 : Int) ^ bits)).toNat) := by
  refine ⟨to_binary_length n bits hb h1 h2, ?_⟩
  have hne : to_binary n bits ≠ [] := by
    have hl := to_binary_length n bits hb h1 h2
    intro hx
    rw [hx, List.length_nil] at hl
    omega
  rw [pyIntBase2_eq _ hne (to_binary_bits n bits hb h1 h2),
    to_binary_val n bits hb h1 h2]

/-- Witness for the amended C4: the specification's three round-trip
examples, -1 -> 0xffff, 32767 -> 0x7fff, -32768 -> 0x8000, all in 16 bits. -/
theorem c4_to_binary_two_complement_witness :
    pyIntBase2 (to_binary (-1) 16) = some 65535 ∧
    pyIntBase2 (to_binary 32767 16) = some 32767 ∧
    pyIntBase2 (to_binary (-32768) 16) = some 32768 ∧
    (to_binary (-1) 16).length = 16 := by
  refine ⟨?_, ?_, ?_,
    (c4_to_binary_two_complement (-1) 16 (by norm_num) (by norm_num)
      (by norm_num)).1⟩
  · exact ((c4_to_binary_two_complement (-1) 16 (by norm_num) (by norm_num)
      (by norm_num)).2).trans (by decide)
  · exact ((c4_to_binary_two_complement 32767 16 (by norm_num) (by norm_num)
      (by norm_num)).2).trans (by decide)
  · exact ((c4_to_binary_two_complement (-32768) 16 (by norm_num) (by norm_num)
      (by norm_num)).2).trans (by decide)

/-- Counterexample for C5: a label-only line is non-blank yet does not
advance the second pass's running address.  After the label-only line "L:",
the branch is encoded at address 0 (offset -1, word 0x1000_ffff); had the
address advanced after each non-blank line, the branch would sit at address 4
and encode offset -2 (word 0x1000_fffe). -/
theorem c5_counterexample :
    second_pass ["L:", "beq $zero, $zero, L"] [("L", 0)] =
      .ok [("L:", none), ("beq $zero, $zero, L", some "0x1000_ffff")] ∧
    assemble "beq $zero, $zero, L" [("L", 0)] 4 = .ok "0x1000_fffe" ∧
    ("0x1000_ffff" : String) ≠ "0x1000_fffe" :=
  ⟨rfl, rfl, by decide⟩

/-- C5 (amended): the second pass's running address starts at 0 and is
advanced by 4 after each instruction-bearing line only — blank and label-only
lines do not advance it — so every encoded line is assembled at address
4 * (number of instruction-bearing lines before it), mirroring the first
pass's bookkeeping. -/
theorem c5_running_address (lines : List String) (tbl : SymTab) :
    second_pass lines tbl = second_pass_spec lines tbl :=
  sp_go_spec lines tbl 0

/-- C6: defining the same label twice makes the first pass fail with
DuplicateLabel, whether the second definition is on an instruction line or a
bare label line, so a successful first pass never records a label twice. -/
theorem c6_duplicate_label (lines : List String)
    (hdup : ¬ (definedLabels lines).Nodup) :
    first_pass lines = .error .duplicateLabel := by
  rcases fp_go_shape lines [] 0 with ⟨t, ht⟩ | herr
  · exact absurd (fp_go_nodup lines [] 0 t ht).1 hdup
  · exact herr

/-- Witness for C6: the same label on an instruction line and then on a bare
label line. -/
theorem c6_duplicate_label_witness :
    first_pass ["x: add $t0, $t0, $t0", "x:"] = .error .duplicateLabel :=
  c6_duplicate_label _ (by decide)

/-- Counterexample for C7: a jump target at 2^28 is accepted (it is a
multiple of 4) but its shifted value needs 27 bits, so the emitted word
0x1400_0000 is not the 6-bit opcode followed by the address shifted right by
2 in 26 bits under either reading (truncated: 0x0800_0000; untruncated sum:
0x0c00_0000). -/
theorem c7_counterexample :
    assembleParts ["j", "268435456"] [] 0 = .ok "0x1400_0000" ∧
    render (2 * 2 ^ 26 + 268435456 / 4 % 2 ^ 26) = "0x0800_0000" ∧
    render (2 * 2 ^ 26 + 268435456 / 4) = "0x0c00_0000" ∧
    ("0x1400_0000" : String) ≠ "0x0800_0000" ∧
    ("0x1400_0000" : String) ≠ "0x0c00_0000" :=
  ⟨rfl, rfl, rfl, by decide, by decide⟩

/-- C7 (amended): the j operand resolves via the symbol table or as a literal
integer, failing with InvalidLabelOrAddress when neither applies; a resolved
target that is not a multiple of 4 fails with UnalignedJumpTarget even when
the label resolved; and for aligned targets in [-2^28, 2^28) the word is the
6-bit opcode followed by the target shifted right by 2 in 26 bits
(two's-complement). -/
theorem c7_jump (s : String) (tbl : SymTab) (addr : Nat) :
    (List.lookup s tbl = none → parsePyInt s = none →
      assembleParts ["j", s] tbl addr = .error .invalidLabelOrAddress) ∧
    (∀ t : Int,
      ((∃ m : Nat, List.lookup s tbl = some m ∧ t = (m : Int)) ∨
        (List.lookup s tbl = none ∧ parsePyInt s = some t)) →
      (t % 4 ≠ 0 → assembleParts ["j", s] tbl addr = .error .unalignedJumpTarget) ∧
      (t % 4 = 0 → -268435456 ≤ t → t < 268435456 →
        assembleParts ["j", s] tbl addr =
          .ok (render (2 * 2 ^ 26 + ((t / 4) % 67108864).toNat)))) := by
  constructor
  · intro hl hs
    rw [assembleParts_j, encodeJ_none _ s tbl hl hs]
    rfl
  · intro t hres
    have hJ : encodeJ ⟨.J, 0x02⟩ s tbl =
        (if t % 4 ≠ 0 then .error .unalignedJumpTarget
        else .ok (to_binary ((2 : Nat) : Int) 6 ++ to_binary (t / 4) 26)) := by
      rcases hres with ⟨m, hl, rfl⟩ | ⟨hl, hs⟩
      · exact encodeJ_label _ s tbl m hl
      · exact encodeJ_int _ s tbl t hl hs
    constructor
    · intro hmis
      rw [assembleParts_j, hJ, if_pos hmis]
      rfl
    · intro hal hlo hhi
      rw [assembleParts_j, hJ, if_neg (by omega), except_bind_ok]
      exact encodeJ_word 2 (t / 4) (by norm_num) (by omega) (by omega)

/-- Witness for the amended C7: an unresolvable operand, an unaligned integer
target, and an aligned one. -/
theorem c7_jump_witness :
    assembleParts ["j", "zzz"] [] 0 = .error .invalidLabelOrAddress ∧
    assembleParts ["j", "6"] [] 0 = .error .unalignedJumpTarget ∧
    assembleParts ["j", "8"] [] 0 = .ok (render (2 * 2 ^ 26 + 2)) := by
  refine ⟨(c7_jump "zzz" [] 0).1 rfl rfl, ?_, ?_⟩
  · exact ((c7_jump "6" [] 0).2 6 (Or.inr ⟨rfl, rfl⟩)).1 (by decide)
  · exact ((c7_jump "8" [] 0).2 8 (Or.inr ⟨rfl, rfl⟩)).2 (by decide) (by decide)
      (by decide)

/-- C8: sll fails with InvalidShiftAmount whenever its third operand is not
an integer in [0, 31] (non-numeric, negative, or 32 and above), and succeeds
with the shamt field holding the parsed value when it is in range. -/
theorem c8_shift_amount (o0 o1 s : String) (tbl : SymTab) (addr : Nat)
    (rd rt : Nat) (h0 : parse_register o0 = .ok rd)
    (h1 : parse_register o1 = .ok rt) :
    (parsePyInt s = none →
      assembleParts ["sll", o0, o1, s] tbl addr = .error .invalidShiftAmount) ∧
    (∀ v : Int, parsePyInt s = some v → (v < 0 ∨ 32 ≤ v) →
      assembleParts ["sll", o0, o1, s] tbl addr = .error .invalidShiftAmount) ∧
    (∀ v : Int, parsePyInt s = some v → 0 ≤ v → v < 32 →
      assembleParts ["sll", o0, o1, s] tbl addr =
        .ok (render (rt * 2 ^ 16 + rd * 2 ^ 11 + v.toNat * 2 ^ 6))) := by
  refine ⟨?_, ?_, ?_⟩
  · intro hs
    rw [assembleParts_sll, encodeSll_step _ o0 o1 s rd rt h0 h1, hs]
    rfl
  · intro v hs hout
    rw [assembleParts_sll, encodeSll_step _ o0 o1 s rd rt h0 h1, hs]
    simp only []
    have hnr : ¬ (0 ≤ v ∧ v < 32) := by omega
    rw [if_neg hnr]
    rfl
  · intro v hs h0v h32
    rw [assembleParts_sll, encodeSll_step _ o0 o1 s rd rt h0 h1, hs]
    simp only []
    rw [if_pos ⟨h0v, h32⟩, except_bind_ok]
    have h := encodeR_word 0 rt rd v 0 (by norm_num) (by norm_num)
      (parse_register_lt h1) (parse_register_lt h0) h0v h32 (by norm_num)
    exact h.trans (congrArg
      (fun w => (Except.ok (render w) : Except AsmError String)) (by omega))

/-- Witness for C8: the specification's example sll $t0, $t1, 32 fails, and
shift amount 4 succeeds with shamt 4. -/
theorem c8_shift_amount_witness :
    assembleParts ["sll", "$t0", "$t1", "32"] [] 0 =
        .error .invalidShiftAmount ∧
    assembleParts ["sll", "$t0", "$t1", "4"] [] 0 =
        .ok (render (9 * 2 ^ 16 + 8 * 2 ^ 11 + 4 * 2 ^ 6)) := by
  refine ⟨?_, ?_⟩
  · exact (c8_shift_amount "$t0" "$t1" "32" [] 0 8 9 (by rfl) (by rfl)).2.1 32
      (by rfl) (by decide)
  · exact (c8_shift_amount "$t0" "$t1" "4" [] 0 8 9 (by rfl) (by rfl)).2.2 4
      (by rfl) (by decide) (by decide)

/-- C9: when the first pass succeeds, a label defined on line i resolves to
4 * (number of instruction-bearing lines before line i), which — whenever the
lines from i up to (but excluding) j carry no instruction — also equals
4 * (count before line j), the address of the first instruction at or after
the definition; and the second pass encodes every instruction-bearing line at
exactly that per-line address (its running address recomputation agrees with
the first pass's bookkeeping). -/
theorem c9_address_agreement (lines : List String) (tbl : SymTab)
    (h : first_pass lines = .ok tbl) (i j : Nat) (hi : i < lines.length)
    (hj : j ≤ lines.length) (hij : i ≤ j) (lab : String) (r : List Char)
    (hlab : matchLabel (lineStripped (lines.get ⟨i, hi⟩)) = some (lab, r))
    (hgap : ∀ k (hk : k < lines.length), i ≤ k → k < j →
      isInstrLine (lines.get ⟨k, hk⟩) = false) :
    List.lookup lab tbl = some (4 * instrCount (lines.take j)) ∧
    second_pass lines tbl = second_pass_spec lines tbl := by
  constructor
  · have haddr := fp_go_label_addr lines [] 0 tbl h i hi lab r hlab
    rw [instrCount_take_eq lines i j hij hj hgap]
    simpa using haddr
  · exact sp_go_spec lines tbl 0

/-- Witness for C9: a bare label followed by an instruction resolves to the
address of that instruction (0, since nothing precedes it). -/
theorem c9_address_agreement_witness :
    List.lookup "L" ([("L", 0)] : SymTab) =
      some (4 * instrCount (["L:", "add $t0, $t0, $t0"].take 1)) := by
  exact (c9_address_agreement ["L:", "add $t0, $t0, $t0"] [("L", 0)] rfl 0 1
    (by decide) (by decide) (by decide) "L" [] (by rfl)
    (by intro k hk hik hkj
        have hk0 : k = 0 := by omega
        subst hk0
        rfl)).1

theorem bind_if_finish {c : Prop} [inst : Decidable c] (x : List Char)
    (e : AsmError) :
    ((if c then Except.ok x else Except.error e) >>= finishCode) =
      if c then finishCode x else .error e := by
  by_cases h : c
  · rw [if_pos h, if_pos h, except_bind_ok]
  · rw [if_neg h, if_neg h]
    rfl

/-- C10: symbol-table lookup takes precedence over literal integer parsing in
beq/bne/j operands.  When the operand names a defined label the result is a
function of that label's address alone (the literal parse is never
consulted, so a label consisting of digits shadows the number it spells);
only when no such label exists is the operand parsed as an integer. -/
theorem c10_label_precedence (o0 o1 lab : String) (addr : Nat) (rs rt : Nat)
    (h0 : parse_register o0 = .ok rs) (h1 : parse_register o1 = .ok rt) :
    (∀ (tbl : SymTab) (t : Nat), List.lookup lab tbl = some t →
      (assembleParts ["beq", o0, o1, lab] tbl addr =
        (if -32768 ≤ ((t : Int) - ((addr : Int) + 4)) / 4 ∧
            ((t : Int) - ((addr : Int) + 4)) / 4 ≤ 32767 then
          finishCode (to_binary ((4 : Nat) : Int) 6 ++ to_binary (rs : Int) 5 ++
            to_binary (rt : Int) 5 ++
            to_binary (((t : Int) - ((addr : Int) + 4)) / 4) 16)
        else .error .branchOffsetOutOfRange)) ∧
      (assembleParts ["bne", o0, o1, lab] tbl addr =
        (if -32768 ≤ ((t : Int) - ((addr : Int) + 4)) / 4 ∧
            ((t : Int) - ((addr : Int) + 4)) / 4 ≤ 32767 then
          finishCode (to_binary ((5 : Nat) : Int) 6 ++ to_binary (rs : Int) 5 ++
            to_binary (rt : Int) 5 ++
            to_binary (((t : Int) - ((addr : Int) + 4)) / 4) 16)
        else .error .branchOffsetOutOfRange)) ∧
      (assembleParts ["j", lab] tbl addr =
        (if (t : Int) % 4 ≠ 0 then .error .unalignedJumpTarget
        else finishCode (to_binary ((2 : Nat) : Int) 6 ++
          to_binary ((t : Int) / 4) 26)))) ∧
    (∀ (tbl : SymTab) (i : Int), List.lookup lab tbl = none →
      parsePyInt lab = some i →
      (assembleParts ["beq", o0, o1, lab] tbl addr =
        (if -32768 ≤ i ∧ i ≤ 32767 then
          finishCode (to_binary ((4 : Nat) : Int) 6 ++ to_binary (rs : Int) 5 ++
            to_binary (rt : Int) 5 ++ to_binary i 16)
        else .error .branchOffsetOutOfRange)) ∧
      (assembleParts ["j", lab] tbl addr =
        (if i % 4 ≠ 0 then .error .unalignedJumpTarget
        else finishCode (to_binary ((2 : Nat) : Int) 6 ++ to_binary (i / 4) 26)))) := by
  constructor
  · intro tbl t hl
    refine ⟨?_, ?_, ?_⟩
    · rw [assembleParts_beq,
        encodeBranch_label _ o0 o1 lab tbl addr rs rt t h0 h1 hl, bind_if_finish]
    · rw [assembleParts_bne,
        encodeBranch_label _ o0 o1 lab tbl addr rs rt t h0 h1 hl, bind_if_finish]
    · rw [assembleParts_j, encodeJ_label _ lab tbl t hl]
      by_cases hal : (t : Int) % 4 ≠ 0
      · rw [if_pos hal, if_pos hal]
        rfl
      · rw [if_neg hal, if_neg hal, except_bind_ok]
  · intro tbl i hl hs
    refine ⟨?_, ?_⟩
    · rw [assembleParts_beq,
        encodeBranch_int _ o0 o1 lab tbl addr rs rt i h0 h1 hl hs, bind_if_finish]
    · rw [assembleParts_j, encodeJ_int _ lab tbl i hl hs]
      by_cases hal : i % 4 ≠ 0
      · rw [if_pos hal, if_pos hal]
        rfl
      · rw [if_neg hal, if_neg hal, except_bind_ok]

/-- Witness for C10: the specification's example — defining a label named
"8" at address 16 changes the meaning of j 8 (word 0x0800_0004 via the label
versus 0x0800_0002 via the literal address 8). -/
theorem c10_label_precedence_witness :
    assembleParts ["j", "8"] [("8", 16)] 0 = .ok (render (2 * 2 ^ 26 + 4)) ∧
    assembleParts ["j", "8"] [] 0 = .ok (render (2 * 2 ^ 26 + 2)) ∧
    render (2 * 2 ^ 26 + 4) ≠ render (2 * 2 ^ 26 + 2) := by
  refine ⟨?_, ?_, by decide⟩
  · exact ((c10_label_precedence "$zero" "$zero" "8" 0 0 0 (by rfl) (by rfl)).1
      [("8", 16)] 16 rfl).2.2
  · exact ((c10_label_precedence "$zero" "$zero" "8" 0 0 0 (by rfl) (by rfl)).2
      [] 8 rfl rfl).2
